import Mathlib

/- Verification of the Vectra vector store (Rust sources src/ver.rs and
   src/main.rs) against its natural-language specification.

   Shallow embedding conventions:
   - Machine integers (usize, u64, u32, i32) are modelled as Nat / bit
     patterns; bincode (the serializer used by the source, in its default
     legacy configuration) writes them as fixed-width little-endian bytes.
   - f64 and f32 values appearing in persisted data are modelled by their
     bit patterns (a Nat below 2^64 resp. 2^32): bincode writes exactly
     those bytes, so a bit-identical round trip is equality of patterns.
   - Rust String values are modelled by their UTF-8 byte lists (List Nat).
   - chrono DateTime(Utc) is modelled as an Int (the instant at full
     precision); its serde form is an RFC 3339 text string, a lossless
     canonical rendering, modelled here as a canonical injective byte
     sequence (a sign byte followed by little-endian base-256 digits).
   - The file system is an association list from file-name bytes to file
     content bytes; save_to_dir / load_from_dir address the canonical
     file name.bin inside the single data directory.
   - For the metric engine (src/ver.rs distance), f64 arithmetic is
     modelled over the reals.
-/

namespace Vectra

/-! ### Byte-level primitives of the bincode layout -/

/-- Little-endian fixed-width encoding of a Nat into `w` bytes. -/
def toLE : Nat → Nat → List Nat
  | 0, _ => []
  | w + 1, n => n % 256 :: toLE w (n / 256)

/-- Value of a little-endian byte list. -/
def fromLE (bs : List Nat) : Nat :=
  bs.foldr (fun b acc => b + 256 * acc) 0

/-- Little-endian base-256 digits, with a fuel argument that only forces
structural recursion (fuel n itself always suffices). -/
def natDigitsAux : Nat → Nat → List Nat
  | 0, _ => []
  | fuel + 1, n => if n = 0 then [] else n % 256 :: natDigitsAux fuel (n / 256)

/-- Little-endian base-256 digits of a Nat, shortest form. -/
def natDigits (n : Nat) : List Nat := natDigitsAux n n

/-- Read exactly `w` bytes from the front of a stream. -/
def readBytes (w : Nat) (bs : List Nat) : Option (List Nat × List Nat) :=
  if w ≤ bs.length then some (bs.take w, bs.drop w) else none

/-- Read a fixed-width u64 (8 little-endian bytes). -/
def readU64 (bs : List Nat) : Option (Nat × List Nat) :=
  (readBytes 8 bs).map fun p => (fromLE p.1, p.2)

/-- Read a fixed-width u32 (4 little-endian bytes). -/
def readU32 (bs : List Nat) : Option (Nat × List Nat) :=
  (readBytes 4 bs).map fun p => (fromLE p.1, p.2)

/-- Read a length-prefixed byte string (u64 length, then the bytes). -/
def readStr (bs : List Nat) : Option (List Nat × List Nat) :=
  (readU64 bs).bind fun p => readBytes p.1 p.2

def encodeU64 (n : Nat) : List Nat := toLE 8 n

def encodeU32 (n : Nat) : List Nat := toLE 4 n

/-- Length-prefixed byte string, as bincode lays out a Rust String. -/
def encodeStr (s : List Nat) : List Nat := encodeU64 s.length ++ s

/-! ### Data model (src/ver.rs) -/

/-- MetadataValue from src/ver.rs. Integer(i32) and Float(f32) carry their
32-bit patterns, String its UTF-8 bytes, DateTime the modelled instant. -/
inductive MetadataValue where
  | integer (bits : Nat)
  | float (bits : Nat)
  | str (bytes : List Nat)
  | bool (b : Bool)
  | dateTime (t : Int)
deriving DecidableEq

/-- MetadataEntry from src/ver.rs: a key and a value. -/
structure MetadataEntry where
  key : List Nat
  value : MetadataValue
deriving DecidableEq

/-- Vector from src/ver.rs, at T = f64: data holds the f64 bit patterns. -/
structure Vector where
  data : List Nat
  metadata : List MetadataEntry
deriving DecidableEq

/-- Database from src/ver.rs. -/
structure Database where
  name : List Nat
  dimension : Nat
  vectors : List Vector
deriving DecidableEq

/-- vector_len from src/ver.rs. -/
def vectorLen (v : Vector) : Nat := v.data.length

/-! ### Serialization: the bincode image of the data model -/

/-- Canonical byte rendering of the modelled DateTime instant (stands for
the RFC 3339 text chrono emits through serde, which is lossless). -/
def dtBytes (t : Int) : List Nat :=
  (if t < 0 then 1 else 0) :: natDigits t.natAbs

/-- Inverse of dtBytes (stands for the RFC 3339 parse on deserialization). -/
def decodeDT (bs : List Nat) : Option Int :=
  match bs with
  | [] => none
  | s :: ds =>
    if s = 1 then
      if fromLE ds = 0 then none else some (-(fromLE ds : Int))
    else if s = 0 then some (fromLE ds : Int)
    else none

/-- bincode image of a MetadataValue: u32 variant tag, then the payload. -/
def encodeValue : MetadataValue → List Nat
  | .integer b => encodeU32 0 ++ encodeU32 b
  | .float b => encodeU32 1 ++ encodeU32 b
  | .str s => encodeU32 2 ++ encodeStr s
  | .bool b => encodeU32 3 ++ [if b then 1 else 0]
  | .dateTime t => encodeU32 4 ++ encodeStr (dtBytes t)

def decodeValue (bs : List Nat) : Option (MetadataValue × List Nat) :=
  (readU32 bs).bind fun p =>
    if p.1 = 0 then (readU32 p.2).map fun q => (.integer q.1, q.2)
    else if p.1 = 1 then (readU32 p.2).map fun q => (.float q.1, q.2)
    else if p.1 = 2 then (readStr p.2).map fun q => (.str q.1, q.2)
    else if p.1 = 3 then
      (readBytes 1 p.2).bind fun q =>
        match q.1 with
        | [0] => some (.bool false, q.2)
        | [1] => some (.bool true, q.2)
        | _ => none
    else if p.1 = 4 then
      (readStr p.2).bind fun q => (decodeDT q.1).map fun t => (.dateTime t, q.2)
    else none

def encodeEntry (e : MetadataEntry) : List Nat :=
  encodeStr e.key ++ encodeValue e.value

def decodeEntry (bs : List Nat) : Option (MetadataEntry × List Nat) :=
  (readStr bs).bind fun p =>
    (decodeValue p.2).map fun q => (MetadataEntry.mk p.1 q.1, q.2)

/-- Decode `n` consecutive items with the item decoder `dec`. -/
def decodeListOf {α : Type} (dec : List Nat → Option (α × List Nat)) :
    Nat → List Nat → Option (List α × List Nat)
  | 0, bs => some ([], bs)
  | n + 1, bs =>
    (dec bs).bind fun p =>
      (decodeListOf dec n p.2).map fun q => (p.1 :: q.1, q.2)

/-- bincode image of a Vector(f64): length-prefixed f64 patterns, then the
length-prefixed metadata entries. -/
def encodeVector (v : Vector) : List Nat :=
  encodeU64 v.data.length ++ (v.data.map encodeU64).flatten ++
    encodeU64 v.metadata.length ++ (v.metadata.map encodeEntry).flatten

def decodeVector (bs : List Nat) : Option (Vector × List Nat) :=
  (readU64 bs).bind fun p =>
    (decodeListOf readU64 p.1 p.2).bind fun q =>
      (readU64 q.2).bind fun r =>
        (decodeListOf decodeEntry r.1 r.2).map fun s =>
          (Vector.mk q.1 s.1, s.2)

/-- bincode image of a Database: name, dimension (usize as u64), vectors. -/
def encodeDatabase (db : Database) : List Nat :=
  encodeStr db.name ++ encodeU64 db.dimension ++
    encodeU64 db.vectors.length ++ (db.vectors.map encodeVector).flatten

def decodeDatabase (bs : List Nat) : Option (Database × List Nat) :=
  (readStr bs).bind fun p =>
    (readU64 p.2).bind fun q =>
      (readU64 q.2).bind fun r =>
        (decodeListOf decodeVector r.1 r.2).map fun s =>
          (Database.mk p.1 q.1 s.1, s.2)

/-! ### Well-formedness: the values representable by the Rust types
(bit patterns within width, lengths within usize). -/

def wfValue : MetadataValue → Bool
  | .integer b => decide (b < 2 ^ 32)
  | .float b => decide (b < 2 ^ 32)
  | .str s => decide (s.length < 2 ^ 64)
  | .bool _ => true
  | .dateTime t => decide ((dtBytes t).length < 2 ^ 64)

def wfEntry (e : MetadataEntry) : Bool :=
  decide (e.key.length < 2 ^ 64) && wfValue e.value

def wfVector (v : Vector) : Bool :=
  decide (v.data.length < 2 ^ 64) && v.data.all (fun x => decide (x < 2 ^ 64)) &&
    decide (v.metadata.length < 2 ^ 64) && v.metadata.all wfEntry

def wfDatabase (db : Database) : Bool :=
  decide (db.name.length < 2 ^ 64) && decide (db.dimension < 2 ^ 64) &&
    decide (db.vectors.length < 2 ^ 64) && db.vectors.all wfVector

/-! ### Database operations (src/ver.rs) -/

inductive InsertResult where
  | ok
  | dimensionMismatch
deriving DecidableEq

/-- Database::insert from src/ver.rs: the mutation is modelled by
returning the updated database together with the io::Result. -/
def Database.insert (db : Database) (v : Vector) : Database × InsertResult :=
  if vectorLen v ≠ db.dimension then (db, .dimensionMismatch)
  else ({ db with vectors := db.vectors ++ [v] }, .ok)

/-- The data directory: file name bytes paired with file content bytes. -/
abbrev FS := List (List Nat × List Nat)

def lookupFS (fs : FS) (fname : List Nat) : Option (List Nat) :=
  (fs.find? fun p => decide (p.1 = fname)).map fun p => p.2

/-- File::create semantics: overwrite any previous file of that name. -/
def writeFS (fs : FS) (fname content : List Nat) : FS :=
  (fname, content) :: fs.filter fun p => decide (¬ p.1 = fname)

/-- The UTF-8 bytes of the file extension .bin with its dot. -/
def dotBin : List Nat := [46, 98, 105, 110]

/-- Canonical file name {name}.bin used by save_to_dir and load_from_dir. -/
def canonicalName (name : List Nat) : List Nat := name ++ dotBin

/-- Database::save_to_dir: serialize the whole database and overwrite the
canonical file (create_dir_all is a no-op in the model). -/
def Database.saveToDir (db : Database) (fs : FS) : FS :=
  writeFS fs (canonicalName db.name) (encodeDatabase db)

inductive LoadResult where
  | notFound
  | panicked
  | ok (db : Database)
deriving DecidableEq

/-- Database::load_from_dir from src/ver.rs. File::open on an absent
canonical file yields the typed io NotFound error; an undecodable file
hits bincode deserialize(..).unwrap(), which panics — modelled as
LoadResult.panicked. -/
def Database.loadFromDir (fs : FS) (name : List Nat) : LoadResult :=
  match lookupFS fs (canonicalName name) with
  | none => .notFound
  | some bs =>
    match decodeDatabase bs with
    | none => .panicked
    | some p => .ok p.1

/-! ### Cache layer (src/main.rs) -/

structure CacheEntry where
  db : Database
  last : Nat
  dirty : Bool
deriving DecidableEq

abbrev CacheMap := List (List Nat × CacheEntry)

/-- estimate_entry_bytes from src/main.rs: 8 bytes per f64 value plus, per
metadata entry, the key length and a 32-byte allowance (saturating adds on
usize are plain Nat addition here). -/
def estimateEntryBytes (e : CacheEntry) : Nat :=
  (e.db.vectors.map fun v =>
    v.data.length * 8 + (v.metadata.map fun m => m.key.length + 32).sum).sum

/-- The TTL phase of evict_if_needed: remove entries with
now - last_access > ttl that are not dirty (Instant subtraction saturates,
as Nat subtraction does). -/
def ttlSweep (map : CacheMap) (now ttl : Nat) : CacheMap :=
  map.filter fun p => decide (¬ (now - p.2.last > ttl ∧ p.2.dirty = false))

/-- Insert into a sorted list, after existing elements that compare
less-or-equal: the insertion step of a stable insertion sort. -/
def insBy {α : Type} (le : α → α → Bool) (x : α) : List α → List α
  | [] => [x]
  | y :: ys => if le y x then y :: insBy le x ys else x :: y :: ys

/-- Stable sort by the comparator le. Rust slice sort_by is a stable sort,
and a stable sort with a fixed total comparator is extensionally unique,
so this stable insertion sort is a faithful model of it. -/
def sortByStable {α : Type} (le : α → α → Bool) (l : List α) : List α :=
  l.foldl (fun acc x => insBy le x acc) []

def bval (b : Bool) : Nat := if b then 1 else 0

/-- Comparator matching sort_by_key on the pair (dirty, last_access):
clean (false) sorts before dirty (true); within a class, oldest first. -/
def prioLe (p q : List Nat × CacheEntry) : Bool :=
  decide (bval p.2.dirty < bval q.2.dirty ∨
    (p.2.dirty = q.2.dirty ∧ p.2.last ≤ q.2.last))

/-- The byte-budget loop of evict_if_needed: while the running total
exceeds max_bytes, remove the first remaining entry of the priority-sorted
queue; returns the removed keys. The running total is updated by
saturating subtraction, which on Nat is plain subtraction. -/
def sweepNames (l : CacheMap) (total maxB : Nat) : List (List Nat) :=
  match l with
  | [] => []
  | (k, e) :: rest =>
    if total ≤ maxB then []
    else k :: sweepNames rest (total - estimateEntryBytes e) maxB

/-- evict_if_needed from src/main.rs: the TTL sweep, then the byte-budget
sweep over the priority-sorted remaining entries. -/
def evictIfNeeded (map : CacheMap) (now maxB ttl : Nat) : CacheMap :=
  let m1 := ttlSweep map now ttl
  let total := (m1.map fun p => estimateEntryBytes p.2).sum
  if total ≤ maxB then m1
  else
    let removed := sweepNames (sortByStable prioLe m1) total maxB
    m1.filter fun p => decide (¬ p.1 ∈ removed)

inductive ApiErr where
  | alreadyExists
deriving DecidableEq

/-- contains_key on the cache table. -/
def containsName (map : CacheMap) (name : List Nat) : Bool :=
  map.any fun p => decide (p.1 = name)

/-- The create_db handler from src/main.rs: reject when the name is a key
of the in-memory cache table; otherwise build a fresh empty Database,
persist it (overwriting any existing canonical file), cache it clean, and
run the eviction pass. -/
def createDb (map : CacheMap) (fs : FS) (name : List Nat) (dim : Nat)
    (now maxB ttl : Nat) : Except ApiErr (CacheMap × FS) :=
  if containsName map name then .error .alreadyExists
  else
    let db : Database := ⟨name, dim, []⟩
    let fs2 := db.saveToDir fs
    let map2 := map ++ [(name, ⟨db, now, false⟩)]
    .ok (evictIfNeeded map2 now maxB ttl, fs2)

/-! ### compute_db_info (src/main.rs) -/

/-- The UTF-8 bytes of the shard marker, underscore part underscore. -/
def partTag : List Nat := [95, 112, 97, 114, 116, 95]

/-- Whether a directory entry name matches the shard pattern
{name}_part_* with the .bin extension. -/
def isPartFile (name fname : List Nat) : Bool :=
  (name ++ partTag).isPrefixOf fname && dotBin.isSuffixOf fname

/-- metadata_type_name from src/main.rs. -/
inductive TypeTag where
  | integer
  | float
  | str
  | bool
  | dateTime
deriving DecidableEq

def metadataTypeName : MetadataValue → TypeTag
  | .integer _ => .integer
  | .float _ => .float
  | .str _ => .str
  | .bool _ => .bool
  | .dateTime _ => .dateTime

/-- The (key, type name) pairs one decoded database contributes to the
metadata schema; the source collects them into a map of sets, so list
membership here models map membership there. -/
def schemaOf (db : Database) : List (List Nat × TypeTag) :=
  (db.vectors.map fun v =>
    v.metadata.map fun e => (e.key, metadataTypeName e.value)).flatten

structure InfoAcc where
  dim : Nat
  count : Nat
  schema : List (List Nat × TypeTag)
deriving DecidableEq

/-- One consider_path step of compute_db_info after a successful decode: a
zero accumulator dimension is overwritten by the file dimension before the
mismatch check; none is the InvalidData (dimension mismatch) error. -/
def considerDb (acc : InfoAcc) (db : Database) : Option InfoAcc :=
  let d := if acc.dim = 0 then db.dimension else acc.dim
  if db.dimension ≠ d then none
  else some ⟨d, acc.count + db.vectors.length, acc.schema ++ schemaOf db⟩

inductive InfoStep where
  | panicked
  | dimMismatch
  | done (acc : InfoAcc)
deriving DecidableEq

def considerAll (acc : InfoAcc) : List (List Nat) → InfoStep
  | [] => .done acc
  | bs :: rest =>
    match decodeDatabase bs with
    | none => .panicked
    | some p =>
      match considerDb acc p.1 with
      | none => .dimMismatch
      | some acc2 => considerAll acc2 rest

/-- The byte contents compute_db_info reads: the canonical file when
present, then every directory entry matching the shard pattern. -/
def infoFiles (fs : FS) (name : List Nat) : List (List Nat) :=
  (match lookupFS fs (canonicalName name) with
   | some bs => [bs]
   | none => []) ++ (fs.filter fun p => isPartFile name p.1).map fun p => p.2

inductive InfoOutcome where
  | panicked
  | dimMismatch
  | notFound
  | ok (dim count : Nat) (schema : List (List Nat × TypeTag))
deriving DecidableEq

/-- compute_db_info from src/main.rs (bincode decode failures hit
unwrap() and panic, modelled as the panicked outcome). -/
def computeDbInfo (fs : FS) (name : List Nat) : InfoOutcome :=
  match considerAll ⟨0, 0, []⟩ (infoFiles fs name) with
  | .panicked => .panicked
  | .dimMismatch => .dimMismatch
  | .done acc =>
    if acc.dim = 0 then .notFound else .ok acc.dim acc.count acc.schema

/-! ### Metric engine (src/ver.rs), f64 arithmetic modelled over ℝ -/

inductive Metric where
  | euclidean
  | l1
  | cosine
deriving DecidableEq

/-- Metric::from_code. -/
def Metric.fromCode (code : String) : Option Metric :=
  if code = "eu" then some .euclidean
  else if code = "l1" then some .l1
  else if code = "cs" then some .cosine
  else none

/-- f64::EPSILON, the machine epsilon of f64, equal to 2 to the -52. -/
noncomputable def f64Eps : ℝ := 1 / 2 ^ 52

/-- Sum of pairwise products over the zipped common prefix: the dot
product loop of the Cosine arm of distance. -/
noncomputable def dotp (a b : List ℝ) : ℝ :=
  ((a.zip b).map fun p => p.1 * p.2).sum

/-- Sum of squares of all elements of one slice: the norm loops of the
Cosine arm of distance. -/
noncomputable def sumSq (a : List ℝ) : ℝ :=
  (a.map fun x => x * x).sum

/-- distance from src/ver.rs. -/
noncomputable def distance (a b : List ℝ) (m : Metric) : ℝ :=
  match m with
  | .euclidean =>
    Real.sqrt (((a.zip b).map fun p => (p.1 - p.2) * (p.1 - p.2)).sum)
  | .l1 => ((a.zip b).map fun p => |p.1 - p.2|).sum
  | .cosine =>
    1 - dotp a b / (Real.sqrt (sumSq a) * Real.sqrt (sumSq b) + f64Eps)

/-- The server-side database view used by the query path: f64 vector data
over ℝ (record metadata plays no role in scoring). -/
structure DatabaseR where
  name : String
  dimension : Nat
  vectors : List (List ℝ)

/-- iter().enumerate(): positions paired with elements, from n upward. -/
def enumIdx {α : Type} : Nat → List α → List (Nat × α)
  | _, [] => []
  | n, x :: xs => (n, x) :: enumIdx (n + 1) xs

/-- The scored list of find_vec: every record position paired with the
distance from that record to the query values (full linear scan). -/
noncomputable def scoredPairs (db : DatabaseR) (values : List ℝ) (m : Metric) :
    List (Nat × ℝ) :=
  (enumIdx 0 db.vectors).map fun p => (p.1, distance p.2 values m)

/-- The sort_by comparator of find_vec: ascending by distance
(partial_cmp on f64; over ℝ this is the total order). -/
noncomputable def pairLe (x y : Nat × ℝ) : Bool := decide (x.2 ≤ y.2)

inductive FindErr where
  | dimensionMismatch
  | unknownMetric
deriving DecidableEq

/-- find_vec / the Find handler from src/main.rs: dimension guard, metric
lookup, full-scan scoring, stable ascending sort by distance, first k. -/
noncomputable def findVec (db : DatabaseR) (values : List ℝ) (k : Nat)
    (fcode : String) : Except FindErr (List (Nat × ℝ)) :=
  if db.dimension ≠ values.length then .error .dimensionMismatch
  else
    match Metric.fromCode fcode with
    | none => .error .unknownMetric
    | some m => .ok ((sortByStable pairLe (scoredPairs db values m)).take k)

/-- The UTF-8 bytes of the created_at metadata key appended by the insert
path of src/main.rs. -/
def createdAtKey : List Nat := [99, 114, 101, 97, 116, 101, 100, 95, 97, 116]

/-- Ascending distance with ties broken by smaller (earlier) position. -/
def lexR (a b : Nat × ℝ) : Prop := a.2 < b.2 ∨ (a.2 = b.2 ∧ a.1 < b.1)

/-! ### Round-trip lemmas for the serialized layout -/

theorem toLE_length (w n : Nat) : (toLE w n).length = w := by
  induction w generalizing n with
  | zero => rfl
  | succ w ih => simp [toLE, ih]

theorem fromLE_toLE {w n : Nat} (h : n < 256 ^ w) : fromLE (toLE w n) = n := by
  induction w generalizing n with
  | zero =>
    simp only [pow_zero, Nat.lt_one_iff] at h
    simp [toLE, fromLE, h]
  | succ w ih =>
    have hdiv : n / 256 < 256 ^ w := by
      rw [Nat.div_lt_iff_lt_mul (by norm_num)]
      calc n < 256 ^ (w + 1) := h
        _ = 256 ^ w * 256 := by ring
    show n % 256 + 256 * fromLE (toLE w (n / 256)) = n
    rw [ih hdiv]
    exact Nat.mod_add_div n 256

theorem readBytes_exact {w : Nat} {xs : List Nat} (rest : List Nat)
    (h : xs.length = w) : readBytes w (xs ++ rest) = some (xs, rest) := by
  subst h
  unfold readBytes
  rw [if_pos (by simp), List.take_left, List.drop_left]

theorem readU64_enc {n : Nat} (rest : List Nat) (h : n < 2 ^ 64) :
    readU64 (encodeU64 n ++ rest) = some (n, rest) := by
  have h8 : n < 256 ^ 8 := by
    have : (256 : Nat) ^ 8 = 2 ^ 64 := by norm_num
    omega
  unfold readU64 encodeU64
  rw [readBytes_exact rest (toLE_length 8 n)]
  simp [fromLE_toLE h8]

theorem readU32_enc {n : Nat} (rest : List Nat) (h : n < 2 ^ 32) :
    readU32 (encodeU32 n ++ rest) = some (n, rest) := by
  have h4 : n < 256 ^ 4 := by
    have : (256 : Nat) ^ 4 = 2 ^ 32 := by norm_num
    omega
  unfold readU32 encodeU32
  rw [readBytes_exact rest (toLE_length 4 n)]
  simp [fromLE_toLE h4]

theorem readStr_enc {s : List Nat} (rest : List Nat) (h : s.length < 2 ^ 64) :
    readStr (encodeStr s ++ rest) = some (s, rest) := by
  unfold readStr encodeStr
  rw [List.append_assoc, readU64_enc _ h, Option.some_bind]
  exact readBytes_exact rest rfl

theorem natDigitsAux_val :
    ∀ (fuel n : Nat), n ≤ fuel → fromLE (natDigitsAux fuel n) = n := by
  intro fuel
  induction fuel with
  | zero =>
    intro n h
    have h0 : n = 0 := by omega
    subst h0
    rfl
  | succ fuel ih =>
    intro n h
    by_cases h0 : n = 0
    · simp [natDigitsAux, h0, fromLE]
    · have hd : n / 256 < n := Nat.div_lt_self (Nat.pos_of_ne_zero h0) (by norm_num)
      simp only [natDigitsAux, if_neg h0]
      show n % 256 + 256 * fromLE (natDigitsAux fuel (n / 256)) = n
      rw [ih (n / 256) (by omega)]
      omega

theorem natDigits_val (n : Nat) : fromLE (natDigits n) = n :=
  natDigitsAux_val n n (le_refl n)

theorem decodeDT_dtBytes (t : Int) : decodeDT (dtBytes t) = some t := by
  by_cases ht : t < 0
  · have hne : t.natAbs ≠ 0 := by omega
    have habs : -|t| = t := by rw [abs_of_neg ht]; ring
    simp [dtBytes, if_pos ht, decodeDT, natDigits_val, hne, habs]
  · have habs : (t.natAbs : Int) = t := by omega
    simp [dtBytes, if_neg ht, decodeDT, natDigits_val, habs]

theorem decodeValue_enc (v : MetadataValue) (rest : List Nat)
    (h : wfValue v = true) : decodeValue (encodeValue v ++ rest) = some (v, rest) := by
  cases v with
  | integer b =>
    simp only [wfValue, decide_eq_true_iff] at h
    simp only [encodeValue, List.append_assoc, decodeValue]
    rw [readU32_enc _ (by norm_num), Option.some_bind, if_pos rfl,
      readU32_enc _ h]
    rfl
  | float b =>
    simp only [wfValue, decide_eq_true_iff] at h
    simp only [encodeValue, List.append_assoc, decodeValue]
    rw [readU32_enc _ (by norm_num), Option.some_bind, if_neg (by norm_num),
      if_pos rfl, readU32_enc _ h]
    rfl
  | str s =>
    simp only [wfValue, decide_eq_true_iff] at h
    simp only [encodeValue, List.append_assoc, decodeValue]
    rw [readU32_enc _ (by norm_num), Option.some_bind, if_neg (by norm_num),
      if_neg (by norm_num), if_pos rfl, readStr_enc _ h]
    rfl
  | bool b =>
    cases b
    · show decodeValue (encodeU32 3 ++ [0] ++ rest) = some (.bool false, rest)
      simp only [List.append_assoc, decodeValue]
      rw [readU32_enc _ (by norm_num), Option.some_bind, if_neg (by norm_num),
        if_neg (by norm_num), if_neg (by norm_num), if_pos rfl,
        readBytes_exact rest (by rfl), Option.some_bind]
    · show decodeValue (encodeU32 3 ++ [1] ++ rest) = some (.bool true, rest)
      simp only [List.append_assoc, decodeValue]
      rw [readU32_enc _ (by norm_num), Option.some_bind, if_neg (by norm_num),
        if_neg (by norm_num), if_neg (by norm_num), if_pos rfl,
        readBytes_exact rest (by rfl), Option.some_bind]
  | dateTime t =>
    simp only [wfValue, decide_eq_true_iff] at h
    simp only [encodeValue, List.append_assoc, decodeValue]
    rw [readU32_enc _ (by norm_num), Option.some_bind, if_neg (by norm_num),
      if_neg (by norm_num), if_neg (by norm_num), if_neg (by norm_num),
      if_pos rfl, readStr_enc _ h, Option.some_bind, decodeDT_dtBytes]
    rfl

theorem decodeEntry_enc (e : MetadataEntry) (rest : List Nat)
    (h : wfEntry e = true) : decodeEntry (encodeEntry e ++ rest) = some (e, rest) := by
  obtain ⟨k, v⟩ := e
  simp only [wfEntry, Bool.and_eq_true, decide_eq_true_iff] at h
  simp only [encodeEntry, List.append_assoc, decodeEntry]
  rw [readStr_enc _ h.1, Option.some_bind, decodeValue_enc v rest h.2]
  rfl

theorem decodeListOf_enc {α : Type} (dec : List Nat → Option (α × List Nat))
    (enc : α → List Nat) (xs : List α) (rest : List Nat)
    (h : ∀ x ∈ xs, ∀ r, dec (enc x ++ r) = some (x, r)) :
    decodeListOf dec xs.length ((xs.map enc).flatten ++ rest) = some (xs, rest) := by
  induction xs generalizing rest with
  | nil => simp [decodeListOf]
  | cons x xs ih =>
    simp only [List.map_cons, List.flatten_cons, List.length_cons,
      List.append_assoc, decodeListOf]
    rw [h x (by simp) _, Option.some_bind,
      ih rest (fun y hy r => h y (by simp [hy]) r)]
    rfl

theorem decodeVector_enc (v : Vector) (rest : List Nat)
    (h : wfVector v = true) : decodeVector (encodeVector v ++ rest) = some (v, rest) := by
  obtain ⟨data, meta⟩ := v
  simp only [wfVector, Bool.and_eq_true, decide_eq_true_iff,
    List.all_eq_true] at h
  obtain ⟨⟨⟨hdl, hdall⟩, hml⟩, hmall⟩ := h
  simp only [encodeVector, List.append_assoc, decodeVector]
  rw [readU64_enc _ hdl, Option.some_bind,
    decodeListOf_enc readU64 encodeU64 data _
      (fun x hx r => readU64_enc r (hdall x hx)),
    Option.some_bind, readU64_enc _ hml, Option.some_bind,
    decodeListOf_enc decodeEntry encodeEntry meta rest
      (fun e he r => decodeEntry_enc e r (hmall e he))]
  rfl

theorem decodeDatabase_enc (db : Database) (rest : List Nat)
    (h : wfDatabase db = true) :
    decodeDatabase (encodeDatabase db ++ rest) = some (db, rest) := by
  obtain ⟨name, dim, vecs⟩ := db
  simp only [wfDatabase, Bool.and_eq_true, decide_eq_true_iff,
    List.all_eq_true] at h
  obtain ⟨⟨⟨hnl, hdim⟩, hvl⟩, hvall⟩ := h
  simp only [encodeDatabase, List.append_assoc, decodeDatabase]
  rw [readStr_enc _ hnl, Option.some_bind, readU64_enc _ hdim,
    Option.some_bind, readU64_enc _ hvl, Option.some_bind,
    decodeListOf_enc decodeVector encodeVector vecs rest
      (fun v hv r => decodeVector_enc v r (hvall v hv))]
  rfl

theorem decodeDatabase_encode_nil (db : Database) (h : wfDatabase db = true) :
    decodeDatabase (encodeDatabase db) = some (db, []) := by
  have := decodeDatabase_enc db [] h
  rwa [List.append_nil] at this

/-! ### Properties of the stable insertion sort -/

theorem mem_insBy {α : Type} (le : α → α → Bool) (x a : α) (l : List α) :
    a ∈ insBy le x l ↔ a = x ∨ a ∈ l := by
  induction l with
  | nil => simp [insBy]
  | cons y ys ih =>
    simp only [insBy]
    split
    · simp only [List.mem_cons, ih]
      tauto
    · simp only [List.mem_cons]

theorem insBy_perm {α : Type} (le : α → α → Bool) (x : α) (l : List α) :
    (insBy le x l).Perm (x :: l) := by
  induction l with
  | nil => simp [insBy]
  | cons y ys ih =>
    simp only [insBy]
    split
    · exact (ih.cons y).trans (List.Perm.swap x y ys)
    · exact List.Perm.refl _

theorem sortAux_perm {α : Type} (le : α → α → Bool) :
    ∀ (l acc : List α),
      (l.foldl (fun acc x => insBy le x acc) acc).Perm (l ++ acc) := by
  intro l
  induction l with
  | nil => intro acc; simp
  | cons x xs ih =>
    intro acc
    simp only [List.foldl_cons, List.cons_append]
    exact (ih (insBy le x acc)).trans
      ((List.Perm.append_left xs (insBy_perm le x acc)).trans List.perm_middle)

theorem sortByStable_perm {α : Type} (le : α → α → Bool) (l : List α) :
    (sortByStable le l).Perm l := by
  have h := sortAux_perm le l []
  simpa [sortByStable] using h

theorem pairwise_insBy {α : Type} (le : α → α → Bool)
    (htot : ∀ a b, le a b = true ∨ le b a = true)
    (htr : ∀ a b c, le a b = true → le b c = true → le a c = true)
    (x : α) (l : List α) (h : l.Pairwise fun a b => le a b = true) :
    (insBy le x l).Pairwise fun a b => le a b = true := by
  induction l with
  | nil => simp [insBy]
  | cons y ys ih =>
    rw [List.pairwise_cons] at h
    obtain ⟨h1, h2⟩ := h
    simp only [insBy]
    split
    · rename_i hyx
      rw [List.pairwise_cons]
      refine ⟨?_, ih h2⟩
      intro z hz
      rcases (mem_insBy le x z ys).1 hz with rfl | hzys
      · exact hyx
      · exact h1 z hzys
    · rename_i hyx
      have hxy : le x y = true := by
        rcases htot x y with hh | hh
        · exact hh
        · exact absurd hh hyx
      rw [List.pairwise_cons]
      constructor
      · intro z hz
        rcases List.mem_cons.1 hz with rfl | hzys
        · exact hxy
        · exact htr x y z hxy (h1 z hzys)
      · exact List.pairwise_cons.2 ⟨h1, h2⟩

theorem pairwise_sortByStable {α : Type} (le : α → α → Bool)
    (htot : ∀ a b, le a b = true ∨ le b a = true)
    (htr : ∀ a b c, le a b = true → le b c = true → le a c = true)
    (l : List α) :
    (sortByStable le l).Pairwise fun a b => le a b = true := by
  suffices h : ∀ (xs acc : List α), acc.Pairwise (fun a b => le a b = true) →
      (xs.foldl (fun acc x => insBy le x acc) acc).Pairwise
        fun a b => le a b = true by
    exact h l [] (by simp)
  intro xs
  induction xs with
  | nil =>
    intro acc h
    simpa using h
  | cons x xs ih =>
    intro acc h
    exact ih _ (pairwise_insBy le htot htr x acc h)

theorem pairLe_iff (x y : Nat × ℝ) : pairLe x y = true ↔ x.2 ≤ y.2 := by
  simp [pairLe]

theorem insBy_pairLe_lex (x : Nat × ℝ) (l : List (Nat × ℝ))
    (h : l.Pairwise lexR) (hidx : ∀ y ∈ l, y.1 < x.1) :
    (insBy pairLe x l).Pairwise lexR := by
  induction l with
  | nil => simp [insBy]
  | cons y ys ih =>
    rw [List.pairwise_cons] at h
    obtain ⟨h1, h2⟩ := h
    have hy : y.1 < x.1 := hidx y (by simp)
    simp only [insBy]
    split
    · rename_i hle
      rw [pairLe_iff] at hle
      rw [List.pairwise_cons]
      refine ⟨?_, ih h2 (fun z hz => hidx z (by simp [hz]))⟩
      intro z hz
      rcases (mem_insBy pairLe x z ys).1 hz with rfl | hzys
      · rcases lt_or_eq_of_le hle with hlt | heq
        · exact Or.inl hlt
        · exact Or.inr ⟨heq, hy⟩
      · exact h1 z hzys
    · rename_i hle
      rw [pairLe_iff] at hle
      have hxy : x.2 < y.2 := not_le.1 hle
      rw [List.pairwise_cons]
      constructor
      · intro z hz
        rcases List.mem_cons.1 hz with rfl | hzys
        · exact Or.inl hxy
        · rcases h1 z hzys with hlt | ⟨heq, _⟩
          · exact Or.inl (hxy.trans hlt)
          · exact Or.inl (heq ▸ hxy)
      · exact List.pairwise_cons.2 ⟨h1, h2⟩

theorem foldl_insBy_lex :
    ∀ (xs acc : List (Nat × ℝ)), acc.Pairwise lexR →
      (∀ y ∈ acc, ∀ x ∈ xs, y.1 < x.1) →
      xs.Pairwise (fun a b => a.1 < b.1) →
      (xs.foldl (fun acc x => insBy pairLe x acc) acc).Pairwise lexR := by
  intro xs
  induction xs with
  | nil =>
    intro acc h _ _
    simpa using h
  | cons x xs ih =>
    intro acc hacc hcross hxs
    rw [List.pairwise_cons] at hxs
    obtain ⟨hx1, hx2⟩ := hxs
    simp only [List.foldl_cons]
    apply ih
    · exact insBy_pairLe_lex x acc hacc (fun y hy => hcross y hy x (by simp))
    · intro y hy z hz
      rcases (mem_insBy pairLe x y acc).1 hy with rfl | hyacc
      · exact hx1 z hz
      · exact hcross y hyacc z (by simp [hz])
    · exact hx2

theorem le_fst_of_mem_enumIdx {α : Type} :
    ∀ (n : Nat) (l : List α) (p : Nat × α), p ∈ enumIdx n l → n ≤ p.1 := by
  intro n l
  induction l generalizing n with
  | nil =>
    intro p hp
    simp [enumIdx] at hp
  | cons x xs ih =>
    intro p hp
    simp only [enumIdx, List.mem_cons] at hp
    rcases hp with rfl | hp2
    · exact le_refl n
    · exact (Nat.le_succ n).trans (ih (n + 1) p hp2)

theorem pairwise_enumIdx {α : Type} :
    ∀ (n : Nat) (l : List α), (enumIdx n l).Pairwise fun a b => a.1 < b.1 := by
  intro n l
  induction l generalizing n with
  | nil => simp [enumIdx]
  | cons x xs ih =>
    simp only [enumIdx]
    rw [List.pairwise_cons]
    refine ⟨?_, ih (n + 1)⟩
    intro p hp
    have h := le_fst_of_mem_enumIdx (n + 1) xs p hp
    omega

theorem enumIdx_length {α : Type} :
    ∀ (n : Nat) (l : List α), (enumIdx n l).length = l.length := by
  intro n l
  induction l generalizing n with
  | nil => rfl
  | cons x xs ih => simp [enumIdx, ih]

/-! ### Shared helper lemmas about the file system -/

theorem lookupFS_writeFS (fs : FS) (f c : List Nat) :
    lookupFS (writeFS fs f c) f = some c := by
  unfold lookupFS writeFS
  rw [List.find?_cons_of_pos _ (by simp)]
  rfl

/-! ### C2: insert appends or rejects with the store unchanged -/

/-- C2: insert appends the record to the end of the records sequence when
the record values length equals the store dimension, and otherwise fails
with the dimension-mismatch condition leaving the store unchanged (the
returned store is identical to the input store). -/
theorem insert_append_or_mismatch (db : Database) (v : Vector) :
    (vectorLen v = db.dimension →
      db.insert v = ({ db with vectors := db.vectors ++ [v] }, .ok)) ∧
    (vectorLen v ≠ db.dimension →
      db.insert v = (db, .dimensionMismatch)) := by
  constructor
  · intro h
    simp [Database.insert, h]
  · intro h
    simp [Database.insert, h]

/-- Witness for C2 at concrete inputs: a matching insert appends, a
mismatching insert returns the error and the unchanged store. -/
theorem insert_append_or_mismatch_witness :
    vectorLen ⟨[5], []⟩ = (1 : Nat) ∧
    Database.insert ⟨[100], 1, []⟩ ⟨[5], []⟩ =
      (⟨[100], 1, [⟨[5], []⟩]⟩, .ok) ∧
    vectorLen ⟨[5, 6], []⟩ ≠ (1 : Nat) ∧
    Database.insert ⟨[100], 1, []⟩ ⟨[5, 6], []⟩ =
      (⟨[100], 1, []⟩, .dimensionMismatch) :=
  ⟨by decide,
   (insert_append_or_mismatch ⟨[100], 1, []⟩ ⟨[5], []⟩).1 (by decide),
   by decide,
   (insert_append_or_mismatch ⟨[100], 1, []⟩ ⟨[5, 6], []⟩).2 (by decide)⟩

/-! ### C6: the TTL sweep -/

/-- C6: the TTL sweep keeps exactly the entries that are not both idle
beyond the ttl and clean — so it removes exactly those whose idle time
now - last_access exceeds the ttl and whose dirty flag is false, and a
dirty entry is never removed by the TTL sweep alone, regardless of its
age or of the table size. -/
theorem ttlSweep_exact (map : CacheMap) (now ttl : Nat) :
    (∀ p : List Nat × CacheEntry,
      p ∈ ttlSweep map now ttl ↔
        p ∈ map ∧ ¬(now - p.2.last > ttl ∧ p.2.dirty = false)) ∧
    (∀ p : List Nat × CacheEntry, p ∈ map → p.2.dirty = true →
      p ∈ ttlSweep map now ttl) := by
  constructor
  · intro p
    simp only [ttlSweep, List.mem_filter, decide_eq_true_iff]
  · intro p hp hd
    rw [ttlSweep, List.mem_filter]
    exact ⟨hp, by simp [hd]⟩

/-- Witness for C6: a dirty entry far beyond its ttl survives the sweep. -/
theorem ttlSweep_exact_witness :
    (([42], CacheEntry.mk ⟨[], 0, []⟩ 0 true) ∈
      ([([42], CacheEntry.mk ⟨[], 0, []⟩ 0 true)] : CacheMap)) ∧
    (CacheEntry.mk ⟨[], 0, []⟩ 0 true).dirty = true ∧
    (([42], CacheEntry.mk ⟨[], 0, []⟩ 0 true) ∈
      ttlSweep [([42], CacheEntry.mk ⟨[], 0, []⟩ 0 true)] 1000 5) :=
  ⟨by decide, by decide,
   (ttlSweep_exact [([42], CacheEntry.mk ⟨[], 0, []⟩ 0 true)] 1000 5).2
     ([42], CacheEntry.mk ⟨[], 0, []⟩ 0 true) (by decide) (by decide)⟩

/-! ### C4: load on an absent or undecodable canonical file -/

/-- C4 (amended): load yields the typed NotFound error when the canonical
file is absent; when the file exists but its stored bytes cannot be
decoded, the process panics (bincode deserialize followed by unwrap)
instead of returning a typed CorruptData failure. -/
theorem load_notFound_or_panic (fs : FS) (name : List Nat) :
    (lookupFS fs (canonicalName name) = none →
      Database.loadFromDir fs name = .notFound) ∧
    (∀ bs, lookupFS fs (canonicalName name) = some bs →
      decodeDatabase bs = none →
      Database.loadFromDir fs name = .panicked) := by
  constructor
  · intro h
    simp [Database.loadFromDir, h]
  · intro bs h1 h2
    simp [Database.loadFromDir, h1, h2]

/-- Witness for C4: the empty directory reports NotFound, and a one-byte
canonical file that cannot be decoded panics. -/
theorem load_notFound_or_panic_witness :
    lookupFS [] (canonicalName [97]) = none ∧
    Database.loadFromDir [] [97] = .notFound ∧
    lookupFS [(canonicalName [97], [255])] (canonicalName [97]) = some [255] ∧
    decodeDatabase [255] = none ∧
    Database.loadFromDir [(canonicalName [97], [255])] [97] = .panicked :=
  ⟨by decide,
   (load_notFound_or_panic [] [97]).1 (by decide),
   by decide,
   by decide,
   (load_notFound_or_panic [(canonicalName [97], [255])] [97]).2 [255]
     (by decide) (by decide)⟩

/-- C4 counterexample: with the canonical file present but holding a
single undecodable byte, load does not return a typed CorruptData
failure — it reaches the unwrap panic (the modelled crash), refuting the
claim that decode failures surface as typed errors and never a crash. -/
theorem load_corrupt_crashes :
    lookupFS [(canonicalName [97], [255])] (canonicalName [97]) = some [255] ∧
    Database.loadFromDir [(canonicalName [97], [255])] [97] = .panicked := by
  decide

/-! ### C5: create checks only the in-memory cache -/

/-- C5 (amended): create fails with the already-exists error precisely
when the name is a key of the in-memory cache table; a collection that
exists only durably on disk does not cause a failure — create succeeds
and overwrites its canonical file with a fresh empty store. -/
theorem createDb_cache_only (map : CacheMap) (fs : FS) (name : List Nat)
    (dim now maxB ttl : Nat) :
    (containsName map name = true →
      createDb map fs name dim now maxB ttl = .error .alreadyExists) ∧
    (containsName map name = false →
      createDb map fs name dim now maxB ttl =
        .ok (evictIfNeeded (map ++ [(name, ⟨⟨name, dim, []⟩, now, false⟩)])
               now maxB ttl,
             writeFS fs (canonicalName name) (encodeDatabase ⟨name, dim, []⟩))) := by
  constructor
  · intro h
    simp [createDb, h]
  · intro h
    simp [createDb, h, Database.saveToDir]

/-- Witness for C5: a cached name is rejected; an uncached name is
created and persisted. -/
theorem createDb_cache_only_witness :
    containsName [([5], ⟨⟨[5], 1, []⟩, 0, false⟩)] [5] = true ∧
    createDb [([5], ⟨⟨[5], 1, []⟩, 0, false⟩)] [] [5] 1 0 1000 1000 =
      .error .alreadyExists ∧
    containsName [] [5] = false ∧
    createDb [] [] [5] 1 0 1000 1000 =
      .ok (evictIfNeeded ([] ++ [([5], ⟨⟨[5], 1, []⟩, 0, false⟩)]) 0 1000 1000,
           writeFS [] (canonicalName [5]) (encodeDatabase ⟨[5], 1, []⟩)) :=
  ⟨by decide,
   (createDb_cache_only [([5], ⟨⟨[5], 1, []⟩, 0, false⟩)] [] [5] 1 0 1000 1000).1
     (by decide),
   by decide,
   (createDb_cache_only [] [] [5] 1 0 1000 1000).2 (by decide)⟩

/-- C5 counterexample: with an empty cache but a durable canonical file
for the name already on disk, create succeeds instead of failing loudly,
refuting the claim that a collection existing only durably is rejected. -/
theorem createDb_ignores_durable :
    lookupFS [(canonicalName [101], encodeDatabase ⟨[101], 3, []⟩)]
      (canonicalName [101]) = some (encodeDatabase ⟨[101], 3, []⟩) ∧
    (createDb [] [(canonicalName [101], encodeDatabase ⟨[101], 3, []⟩)]
      [101] 2 0 1000 1000).isOk = true := by
  decide

/-! ### C1: insert, save_to_dir, load_from_dir round trip -/

/-- C1: inserting a record of matching dimension (the insert path appends
the created_at entry after the caller metadata), persisting with
save_to_dir and reloading with load_from_dir yields exactly the updated
store: the serialized form round-trips losslessly, so the loaded store
contains the record with bit-identical f64 values (equal bit patterns)
and the original metadata entries in their original order with the
appended created_at entry, at full DateTime precision. -/
theorem insert_save_load_roundtrip (db : Database) (values : List Nat)
    (meta : List MetadataEntry) (t : Int) (fs : FS)
    (hdb : wfDatabase db = true)
    (hv : wfVector ⟨values, meta ++ [⟨createdAtKey, .dateTime t⟩]⟩ = true)
    (hlen : values.length = db.dimension)
    (hcap : db.vectors.length + 1 < 2 ^ 64) :
    let v : Vector := ⟨values, meta ++ [⟨createdAtKey, .dateTime t⟩]⟩
    let db2 : Database := { db with vectors := db.vectors ++ [v] }
    db.insert v = (db2, .ok) ∧
    Database.loadFromDir (db2.saveToDir fs) db2.name = .ok db2 ∧
    db2.vectors = db.vectors ++ [v] ∧
    v.data = values ∧
    v.metadata = meta ++ [⟨createdAtKey, .dateTime t⟩] := by
  intro v db2
  have hdb2 : wfDatabase db2 = true := by
    simp only [wfDatabase, Bool.and_eq_true, decide_eq_true_iff,
      List.all_eq_true] at hdb ⊢
    obtain ⟨⟨⟨h1, h2⟩, h3⟩, h4⟩ := hdb
    refine ⟨⟨⟨h1, h2⟩, by simpa using hcap⟩, ?_⟩
    intro x hx
    rcases List.mem_append.1 hx with hx | hx
    · exact h4 x hx
    · rcases List.mem_singleton.1 hx with rfl
      exact hv
  refine ⟨?_, ?_, rfl, rfl, rfl⟩
  · simp [Database.insert, vectorLen, hlen]
  · unfold Database.saveToDir Database.loadFromDir
    rw [lookupFS_writeFS]
    simp only [decodeDatabase_encode_nil db2 hdb2]

/-- Witness for C1: a concrete store of dimension 1, a concrete record
with one caller metadata entry and a negative DateTime, round-tripped. -/
theorem insert_save_load_roundtrip_witness :
    wfDatabase ⟨[120], 1, []⟩ = true ∧
    wfVector ⟨[7], [⟨[107], .str [104]⟩] ++ [⟨createdAtKey, .dateTime (-5)⟩]⟩ = true ∧
    ([7] : List Nat).length = (⟨[120], 1, []⟩ : Database).dimension ∧
    (⟨[120], 1, []⟩ : Database).vectors.length + 1 < 2 ^ 64 ∧
    (let v : Vector := ⟨[7], [⟨[107], .str [104]⟩] ++ [⟨createdAtKey, .dateTime (-5)⟩]⟩
     let db2 : Database :=
       { (⟨[120], 1, []⟩ : Database) with
         vectors := (⟨[120], 1, []⟩ : Database).vectors ++ [v] }
     Database.insert ⟨[120], 1, []⟩ v = (db2, .ok) ∧
     Database.loadFromDir (db2.saveToDir []) db2.name = .ok db2 ∧
     db2.vectors = (⟨[120], 1, []⟩ : Database).vectors ++ [v] ∧
     v.data = [7] ∧
     v.metadata = [⟨[107], .str [104]⟩] ++ [⟨createdAtKey, .dateTime (-5)⟩]) :=
  ⟨by decide, by decide, by decide, by decide,
   insert_save_load_roundtrip ⟨[120], 1, []⟩ [7] [⟨[107], .str [104]⟩] (-5) []
     (by decide) (by decide) (by decide) (by decide)⟩

/-! ### C7: the byte-budget sweep -/

theorem prioLe_total (p q : List Nat × CacheEntry) :
    prioLe p q = true ∨ prioLe q p = true := by
  simp only [prioLe, decide_eq_true_iff]
  by_cases hd : p.2.dirty = q.2.dirty
  · rcases le_total p.2.last q.2.last with h | h
    · exact Or.inl (Or.inr ⟨hd, h⟩)
    · exact Or.inr (Or.inr ⟨hd.symm, h⟩)
  · rcases Nat.lt_or_ge (bval p.2.dirty) (bval q.2.dirty) with h | h
    · exact Or.inl (Or.inl h)
    · have hne : bval p.2.dirty ≠ bval q.2.dirty := by
        cases hp : p.2.dirty <;> cases hq : q.2.dirty <;> simp_all [bval]
      exact Or.inr (Or.inl (by omega))

theorem prioLe_trans (p q r : List Nat × CacheEntry)
    (h1 : prioLe p q = true) (h2 : prioLe q r = true) : prioLe p r = true := by
  simp only [prioLe, decide_eq_true_iff] at h1 h2 ⊢
  rcases h1 with h1 | ⟨h1a, h1b⟩
  · rcases h2 with h2 | ⟨h2a, h2b⟩
    · exact Or.inl (h1.trans h2)
    · have e2 : bval q.2.dirty = bval r.2.dirty := by rw [h2a]
      rw [e2] at h1
      exact Or.inl h1
  · rcases h2 with h2 | ⟨h2a, h2b⟩
    · have e1 : bval p.2.dirty = bval q.2.dirty := by rw [h1a]
      rw [← e1] at h2
      exact Or.inl h2
    · exact Or.inr ⟨h1a.trans h2a, h1b.trans h2b⟩

/-- The while loop of the byte-budget sweep removes some prefix of the
priority queue and leaves a suffix whose estimated total is within
budget, provided the starting total is the exact sum of the queue. -/
theorem sweepNames_spec (maxB : Nat) :
    ∀ (l : CacheMap) (total : Nat),
      total = (l.map fun p => estimateEntryBytes p.2).sum →
      ∃ pre suf, l = pre ++ suf ∧
        sweepNames l total maxB = pre.map (fun p => p.1) ∧
        (suf.map fun p => estimateEntryBytes p.2).sum ≤ maxB := by
  intro l
  induction l with
  | nil =>
    intro total h
    exact ⟨[], [], rfl, rfl, by simp⟩
  | cons p rest ih =>
    intro total h
    by_cases hle : total ≤ maxB
    · refine ⟨[], p :: rest, rfl, ?_, by rw [← h]; exact hle⟩
      obtain ⟨k, e⟩ := p
      simp [sweepNames, hle]
    · obtain ⟨k, e⟩ := p
      have h2 : total - estimateEntryBytes e =
          (rest.map fun p => estimateEntryBytes p.2).sum := by
        subst h
        simp only [List.map_cons, List.sum_cons]
        omega
      obtain ⟨pre, suf, he, hs, hb⟩ := ih _ h2
      refine ⟨(k, e) :: pre, suf, by simp [he], ?_, hb⟩
      simp only [sweepNames, if_neg hle, List.map_cons]
      rw [hs]

/-- C7: in every eviction pass the byte-budget phase works on the
priority-sorted surviving entries (clean before dirty, oldest
last_access first within a class, which is what the comparator prioLe
orders), removes a prefix of that queue, and afterwards the estimated
total byte count of the surviving table is at most max_bytes — hence at
most max_bytes or the table is empty. -/
theorem evict_budget_spec (map : CacheMap) (now maxB ttl : Nat)
    (hnodup : (map.map fun p => p.1).Nodup) :
    ∃ pre suf,
      sortByStable prioLe (ttlSweep map now ttl) = pre ++ suf ∧
      (sortByStable prioLe (ttlSweep map now ttl)).Pairwise
        (fun a b => prioLe a b = true) ∧
      (evictIfNeeded map now maxB ttl).Perm suf ∧
      ((evictIfNeeded map now maxB ttl).map fun p => estimateEntryBytes p.2).sum
        ≤ maxB := by
  have hpw := pairwise_sortByStable prioLe prioLe_total prioLe_trans
    (ttlSweep map now ttl)
  have hperm := sortByStable_perm prioLe (ttlSweep map now ttl)
  by_cases hle :
      (((ttlSweep map now ttl).map fun p => estimateEntryBytes p.2).sum ≤ maxB)
  · refine ⟨[], sortByStable prioLe (ttlSweep map now ttl), by simp, hpw, ?_, ?_⟩
    · unfold evictIfNeeded
      rw [if_pos hle]
      exact hperm.symm
    · unfold evictIfNeeded
      rw [if_pos hle]
      exact hle
  · have hsum : (((sortByStable prioLe (ttlSweep map now ttl)).map
        fun p => estimateEntryBytes p.2).sum)
        = ((ttlSweep map now ttl).map fun p => estimateEntryBytes p.2).sum :=
      (hperm.map _).sum_eq
    obtain ⟨pre, suf, hsplit, hsweep, hbound⟩ :=
      sweepNames_spec maxB (sortByStable prioLe (ttlSweep map now ttl)) _ hsum.symm
    have hnm1 : ((ttlSweep map now ttl).map fun p => p.1).Nodup :=
      List.Nodup.sublist (List.Sublist.map _ (List.filter_sublist map)) hnodup
    have hns : ((pre ++ suf).map fun p => p.1).Nodup := by
      rw [← hsplit]
      exact ((hperm.map fun p => p.1).symm).nodup hnm1
    rw [List.map_append] at hns
    have hdisj := (List.nodup_append.1 hns).2.2
    have hres : evictIfNeeded map now maxB ttl =
        (ttlSweep map now ttl).filter
          fun p => decide (¬ p.1 ∈ pre.map fun q => q.1) := by
      unfold evictIfNeeded
      rw [if_neg hle, hsweep]
    have hfiltereq :
        ((pre ++ suf).filter fun p => decide (¬ p.1 ∈ pre.map fun q => q.1))
          = suf := by
      rw [List.filter_append]
      have hpre : (pre.filter fun p => decide (¬ p.1 ∈ pre.map fun q => q.1))
          = [] := by
        rw [List.filter_eq_nil_iff]
        intro a ha
        simp only [decide_eq_true_iff, Decidable.not_not]
        exact List.mem_map.2 ⟨a, ha, rfl⟩
      have hsuf : (suf.filter fun p => decide (¬ p.1 ∈ pre.map fun q => q.1))
          = suf := by
        rw [List.filter_eq_self]
        intro a ha
        simp only [decide_eq_true_iff]
        intro hmem
        exact hdisj hmem (List.mem_map.2 ⟨a, ha, rfl⟩)
      rw [hpre, hsuf, List.nil_append]
    have hresperm : (evictIfNeeded map now maxB ttl).Perm suf := by
      rw [hres]
      have hp2 : ((ttlSweep map now ttl).filter
          fun p => decide (¬ p.1 ∈ pre.map fun q => q.1)).Perm
          ((pre ++ suf).filter fun p => decide (¬ p.1 ∈ pre.map fun q => q.1)) :=
        List.Perm.filter _ (hsplit ▸ hperm.symm)
      rw [hfiltereq] at hp2
      exact hp2
    refine ⟨pre, suf, hsplit, hpw, hresperm, ?_⟩
    rw [(hresperm.map fun p => estimateEntryBytes p.2).sum_eq]
    exact hbound

/-- Witness for C7: two entries totalling 24 estimated bytes against a
20-byte budget; the clean entry is evicted first and the survivor fits. -/
theorem evict_budget_spec_witness :
    (([([1], CacheEntry.mk ⟨[], 0, [⟨[0, 0], []⟩]⟩ 5 false),
       ([2], CacheEntry.mk ⟨[], 0, [⟨[0], []⟩]⟩ 3 true)] : CacheMap).map
        fun p => p.1).Nodup ∧
    (∃ pre suf,
      sortByStable prioLe (ttlSweep
        [([1], CacheEntry.mk ⟨[], 0, [⟨[0, 0], []⟩]⟩ 5 false),
         ([2], CacheEntry.mk ⟨[], 0, [⟨[0], []⟩]⟩ 3 true)] 5 100) = pre ++ suf ∧
      (sortByStable prioLe (ttlSweep
        [([1], CacheEntry.mk ⟨[], 0, [⟨[0, 0], []⟩]⟩ 5 false),
         ([2], CacheEntry.mk ⟨[], 0, [⟨[0], []⟩]⟩ 3 true)] 5 100)).Pairwise
        (fun a b => prioLe a b = true) ∧
      (evictIfNeeded
        [([1], CacheEntry.mk ⟨[], 0, [⟨[0, 0], []⟩]⟩ 5 false),
         ([2], CacheEntry.mk ⟨[], 0, [⟨[0], []⟩]⟩ 3 true)] 5 20 100).Perm suf ∧
      ((evictIfNeeded
        [([1], CacheEntry.mk ⟨[], 0, [⟨[0, 0], []⟩]⟩ 5 false),
         ([2], CacheEntry.mk ⟨[], 0, [⟨[0], []⟩]⟩ 3 true)] 5 20 100).map
          fun p => estimateEntryBytes p.2).sum ≤ 20) :=
  ⟨by decide,
   evict_budget_spec
     [([1], CacheEntry.mk ⟨[], 0, [⟨[0, 0], []⟩]⟩ 5 false),
      ([2], CacheEntry.mk ⟨[], 0, [⟨[0], []⟩]⟩ 3 true)] 5 20 100 (by decide)⟩

/-! ### C3: find scores every record, sorts stably, returns the first k -/

/-- C3: with a matching-dimension query and a recognized metric code,
find pairs every record position with the distance from that record to
the query (a full linear scan: the sorted list is a permutation of the
scored list), sorts ascending by distance with ties broken by the
original scan position (the lexR pairwise property of a stable sort over
positions in scan order), and returns the first k pairs; the result
length is min k (record count), and when k is at least the record count
the result is all the scored pairs. -/
theorem findVec_topk (db : DatabaseR) (values : List ℝ) (k : Nat)
    (fcode : String) (m : Metric)
    (hdim : db.dimension = values.length)
    (hm : Metric.fromCode fcode = some m) :
    findVec db values k fcode =
      .ok ((sortByStable pairLe (scoredPairs db values m)).take k) ∧
    (sortByStable pairLe (scoredPairs db values m)).Perm
      (scoredPairs db values m) ∧
    ((sortByStable pairLe (scoredPairs db values m)).take k).Pairwise lexR ∧
    ((sortByStable pairLe (scoredPairs db values m)).take k).length =
      min k db.vectors.length ∧
    (db.vectors.length ≤ k →
      ((sortByStable pairLe (scoredPairs db values m)).take k).Perm
        (scoredPairs db values m)) := by
  have hperm := sortByStable_perm pairLe (scoredPairs db values m)
  have hlen : (sortByStable pairLe (scoredPairs db values m)).length =
      db.vectors.length := by
    rw [hperm.length_eq]
    unfold scoredPairs
    rw [List.length_map, enumIdx_length]
  refine ⟨?_, hperm, ?_, ?_, ?_⟩
  · simp [findVec, hdim, hm]
  · have hfull : (sortByStable pairLe (scoredPairs db values m)).Pairwise lexR := by
      unfold sortByStable
      apply foldl_insBy_lex
      · simp
      · simp
      · unfold scoredPairs
        rw [List.pairwise_map]
        exact pairwise_enumIdx 0 db.vectors
    exact List.Pairwise.sublist (List.take_sublist k _) hfull
  · rw [List.length_take, hlen]
  · intro hk
    rw [List.take_of_length_le (by rw [hlen]; exact hk)]
    exact hperm

/-- Witness for C3: a store of dimension 2 with records (0,0) and (3,4),
queried at the origin with the Euclidean code and k = 5. -/
theorem findVec_topk_witness :
    (DatabaseR.mk ("t") 2 [[0, 0], [3, 4]]).dimension =
      ([0, 0] : List ℝ).length ∧
    Metric.fromCode ("eu") = some .euclidean ∧
    (findVec (DatabaseR.mk ("t") 2 [[0, 0], [3, 4]]) [0, 0] 5 ("eu") =
      .ok ((sortByStable pairLe
        (scoredPairs (DatabaseR.mk ("t") 2 [[0, 0], [3, 4]]) [0, 0] .euclidean)).take 5) ∧
    (sortByStable pairLe
      (scoredPairs (DatabaseR.mk ("t") 2 [[0, 0], [3, 4]]) [0, 0] .euclidean)).Perm
      (scoredPairs (DatabaseR.mk ("t") 2 [[0, 0], [3, 4]]) [0, 0] .euclidean) ∧
    ((sortByStable pairLe
      (scoredPairs (DatabaseR.mk ("t") 2 [[0, 0], [3, 4]]) [0, 0] .euclidean)).take 5).Pairwise
      lexR ∧
    ((sortByStable pairLe
      (scoredPairs (DatabaseR.mk ("t") 2 [[0, 0], [3, 4]]) [0, 0] .euclidean)).take 5).length =
      min 5 (DatabaseR.mk ("t") 2 [[0, 0], [3, 4]]).vectors.length ∧
    ((DatabaseR.mk ("t") 2 [[0, 0], [3, 4]]).vectors.length ≤ 5 →
      ((sortByStable pairLe
        (scoredPairs (DatabaseR.mk ("t") 2 [[0, 0], [3, 4]]) [0, 0] .euclidean)).take 5).Perm
        (scoredPairs (DatabaseR.mk ("t") 2 [[0, 0], [3, 4]]) [0, 0] .euclidean))) :=
  ⟨by simp, by decide,
   findVec_topk (DatabaseR.mk ("t") 2 [[0, 0], [3, 4]]) [0, 0] 5 ("eu") .euclidean
     (by simp) (by decide)⟩

/-! ### Helper lemmas for the metric engine -/

theorem f64Eps_pos : 0 < f64Eps := by
  unfold f64Eps
  positivity

theorem sumSq_nonneg (a : List ℝ) : 0 ≤ sumSq a := by
  apply List.sum_nonneg
  intro x hx
  obtain ⟨y, _, rfl⟩ := List.mem_map.1 hx
  exact mul_self_nonneg y

theorem sumSq_cons (x : ℝ) (xs : List ℝ) :
    sumSq (x :: xs) = x * x + sumSq xs := by
  simp [sumSq]

theorem dotp_cons (x y : ℝ) (xs ys : List ℝ) :
    dotp (x :: xs) (y :: ys) = x * y + dotp xs ys := by
  simp [dotp]

theorem sumSq_map_mul (c : ℝ) (a : List ℝ) :
    sumSq (a.map fun x => c * x) = c ^ 2 * sumSq a := by
  induction a with
  | nil => simp [sumSq]
  | cons x xs ih =>
    simp only [List.map_cons, sumSq_cons]
    rw [ih]
    ring

theorem dotp_self_mul (c : ℝ) (a : List ℝ) :
    dotp a (a.map fun x => c * x) = c * sumSq a := by
  induction a with
  | nil => simp [dotp, sumSq]
  | cons x xs ih =>
    simp only [List.map_cons, dotp_cons, sumSq_cons]
    rw [ih]
    ring

theorem zip_take_min {α : Type} :
    ∀ (a b : List α),
      (a.take (min a.length b.length)).zip (b.take (min a.length b.length)) =
        a.zip b := by
  intro a
  induction a with
  | nil =>
    intro b
    simp
  | cons x xs ih =>
    intro b
    cases b with
    | nil => simp
    | cons y ys =>
      simp only [List.length_cons, Nat.succ_min_succ, List.take_succ_cons,
        List.zip_cons_cons]
      rw [ih ys]

/-! ### C9: the cosine metric -/

/-- C9: the cosine arm computes exactly 1 - dot/(na * nb + eps) with eps
the f64 machine epsilon; the denominator is always positive, so division
by a zero norm is guarded; orthogonal vectors (zero dot product) are at
distance exactly 1; and an identical-direction nonzero pair (a, c scaled
a with c positive) is at a strictly positive distance bounded by eps
divided by the norm product — zero up to floating tolerance. -/
theorem cosine_spec :
    (∀ a b : List ℝ, distance a b .cosine =
      1 - dotp a b / (Real.sqrt (sumSq a) * Real.sqrt (sumSq b) + f64Eps)) ∧
    (∀ a b : List ℝ,
      0 < Real.sqrt (sumSq a) * Real.sqrt (sumSq b) + f64Eps) ∧
    (∀ a b : List ℝ, dotp a b = 0 → distance a b .cosine = 1) ∧
    (∀ (a : List ℝ) (c : ℝ), 0 < c → 0 < sumSq a →
      0 < distance a (a.map fun x => c * x) .cosine ∧
      distance a (a.map fun x => c * x) .cosine ≤
        f64Eps /
          (Real.sqrt (sumSq a) * Real.sqrt (sumSq (a.map fun x => c * x)))) := by
  have heps := f64Eps_pos
  refine ⟨fun a b => rfl, ?_, ?_, ?_⟩
  · intro a b
    have h1 := Real.sqrt_nonneg (sumSq a)
    have h2 := Real.sqrt_nonneg (sumSq b)
    nlinarith
  · intro a b h
    show 1 - dotp a b / _ = 1
    rw [h, zero_div, sub_zero]
  · intro a c hc hS
    have hb : sumSq (a.map fun x => c * x) = c ^ 2 * sumSq a :=
      sumSq_map_mul c a
    have hdot : dotp a (a.map fun x => c * x) = c * sumSq a :=
      dotp_self_mul c a
    have hN : Real.sqrt (sumSq a) * Real.sqrt (sumSq (a.map fun x => c * x)) =
        c * sumSq a := by
      rw [hb, Real.sqrt_mul (by positivity), Real.sqrt_sq hc.le]
      calc Real.sqrt (sumSq a) * (c * Real.sqrt (sumSq a))
          = c * (Real.sqrt (sumSq a) * Real.sqrt (sumSq a)) := by ring
        _ = c * sumSq a := by rw [Real.mul_self_sqrt hS.le]
    have hcS : 0 < c * sumSq a := mul_pos hc hS
    have hd : distance a (a.map fun x => c * x) .cosine =
        f64Eps / (c * sumSq a + f64Eps) := by
      show 1 - dotp _ _ / (Real.sqrt (sumSq a) * Real.sqrt (sumSq _) + f64Eps)
          = _
      rw [hdot, hN]
      have hpos : (0 : ℝ) < c * sumSq a + f64Eps := by linarith
      field_simp
    constructor
    · rw [hd]
      exact div_pos heps (by linarith)
    · rw [hd, hN]
      rw [div_le_div_iff₀ (by linarith) hcS]
      nlinarith

/-- Witness for C9: orthogonal unit axes are at cosine distance exactly
1, and the pair ([3], 2 scaled [3]) is identical-direction with the
bounded positive distance. -/
theorem cosine_spec_witness :
    dotp [1, 0] [0, 1] = 0 ∧
    distance [1, 0] [0, 1] .cosine = 1 ∧
    (0 : ℝ) < 2 ∧
    (0 : ℝ) < sumSq [3] ∧
    (0 < distance [3] ([3].map fun x => (2 : ℝ) * x) .cosine ∧
      distance [3] ([3].map fun x => (2 : ℝ) * x) .cosine ≤
        f64Eps /
          (Real.sqrt (sumSq [3]) *
            Real.sqrt (sumSq ([3].map fun x => (2 : ℝ) * x)))) :=
  ⟨by norm_num [dotp],
   cosine_spec.2.2.1 [1, 0] [0, 1] (by norm_num [dotp]),
   by norm_num,
   by norm_num [sumSq],
   cosine_spec.2.2.2 [3] 2 (by norm_num) (by norm_num [sumSq])⟩

/-! ### C10: distance is total and truncates to the common prefix -/

/-- C10 (amended): distance is total over slices of any two lengths — no
length check and no error — and the Euclidean and Manhattan results
depend only on the zipped common prefix; the cosine dot product likewise
ranges over the zipped common prefix, but its two norms are computed
over each full slice. -/
theorem distance_truncation_spec (a b : List ℝ) :
    distance a b .euclidean =
      distance (a.take (min a.length b.length))
        (b.take (min a.length b.length)) .euclidean ∧
    distance a b .l1 =
      distance (a.take (min a.length b.length))
        (b.take (min a.length b.length)) .l1 ∧
    distance a b .cosine =
      1 - dotp (a.take (min a.length b.length))
          (b.take (min a.length b.length)) /
        (Real.sqrt (sumSq a) * Real.sqrt (sumSq b) + f64Eps) := by
  have hdot : dotp (a.take (min a.length b.length))
      (b.take (min a.length b.length)) = dotp a b := by
    unfold dotp
    rw [zip_take_min]
  refine ⟨?_, ?_, ?_⟩
  · simp only [distance]
    rw [zip_take_min]
  · simp only [distance]
    rw [zip_take_min]
  · show 1 - dotp a b / _ = _
    rw [hdot]

/-- C10 counterexample: for the cosine metric the result is not computed
over only the zipped common prefix — the slices [1, 1] and [1] give a
different cosine distance than their common prefixes [1] and [1], because
the norms see the full slices. -/
theorem distance_cosine_full_norms :
    distance [1, 1] [1] .cosine ≠ distance [1] [1] .cosine := by
  have heps := f64Eps_pos
  have h2 : (1 : ℝ) < Real.sqrt 2 := by
    have h := Real.sqrt_lt_sqrt (by norm_num : (0 : ℝ) ≤ 1) (by norm_num : (1 : ℝ) < 2)
    rwa [Real.sqrt_one] at h
  have hL : distance [1, 1] [1] .cosine = 1 - 1 / (Real.sqrt 2 + f64Eps) := by
    show 1 - dotp [1, 1] [1] /
        (Real.sqrt (sumSq [1, 1]) * Real.sqrt (sumSq [1]) + f64Eps) = _
    have hd : dotp [1, 1] [1] = 1 := by norm_num [dotp]
    have hs1 : sumSq [1, 1] = 2 := by norm_num [sumSq]
    have hs2 : sumSq [1] = 1 := by norm_num [sumSq]
    rw [hd, hs1, hs2, Real.sqrt_one, mul_one]
  have hR : distance [1] [1] .cosine = 1 - 1 / (1 + f64Eps) := by
    show 1 - dotp [1] [1] /
        (Real.sqrt (sumSq [1]) * Real.sqrt (sumSq [1]) + f64Eps) = _
    have hd : dotp [1] [1] = 1 := by norm_num [dotp]
    have hs : sumSq [1] = 1 := by norm_num [sumSq]
    rw [hd, hs, Real.sqrt_one, mul_one]
  rw [hL, hR]
  intro h
  have h3 : 1 / (Real.sqrt 2 + f64Eps) = 1 / (1 + f64Eps) := sub_right_inj.1 h
  rw [one_div, one_div, inv_inj] at h3
  have : Real.sqrt 2 = 1 := by linarith
  linarith

/-! ### C8: compute_db_info over the canonical file and shards -/

theorem considerAll_const (d : Nat) (hd : d ≠ 0) :
    ∀ (files : List (List Nat)) (dbs : List Database) (acc : InfoAcc),
      files.map decodeDatabase = dbs.map (fun db => some (db, ([] : List Nat))) →
      acc.dim = d →
      (∀ db ∈ dbs, db.dimension = d) →
      considerAll acc files =
        .done ⟨d, acc.count + (dbs.map fun db => db.vectors.length).sum,
               acc.schema ++ (dbs.map schemaOf).flatten⟩ := by
  intro files
  induction files with
  | nil =>
    intro dbs acc hdec hacc hall
    have hnil : dbs = [] := by
      cases dbs with
      | nil => rfl
      | cons x xs => simp at hdec
    subst hnil
    obtain ⟨ad, ac, as⟩ := acc
    simp only at hacc
    subst hacc
    simp [considerAll]
  | cons bs files ih =>
    intro dbs acc hdec hacc hall
    cases dbs with
    | nil => simp at hdec
    | cons db dbs2 =>
      simp only [List.map_cons, List.cons.injEq] at hdec
      obtain ⟨h1, h2⟩ := hdec
      have hdim : db.dimension = d := hall db (by simp)
      have hstep : considerDb acc db =
          some ⟨d, acc.count + db.vectors.length, acc.schema ++ schemaOf db⟩ := by
        simp [considerDb, hacc, hd, hdim]
      simp only [considerAll, h1, hstep]
      rw [ih dbs2 _ h2 rfl (fun x hx => hall x (by simp [hx]))]
      simp [Nat.add_assoc, List.append_assoc]

theorem considerAll_zero :
    ∀ (files : List (List Nat)) (dbs : List Database) (acc : InfoAcc),
      files.map decodeDatabase = dbs.map (fun db => some (db, ([] : List Nat))) →
      acc.dim = 0 →
      (∀ db ∈ dbs, db.dimension = 0) →
      ∃ acc2 : InfoAcc, considerAll acc files = .done acc2 ∧ acc2.dim = 0 := by
  intro files
  induction files with
  | nil =>
    intro dbs acc hdec hacc hall
    exact ⟨acc, rfl, hacc⟩
  | cons bs files ih =>
    intro dbs acc hdec hacc hall
    cases dbs with
    | nil => simp at hdec
    | cons db dbs2 =>
      simp only [List.map_cons, List.cons.injEq] at hdec
      obtain ⟨h1, h2⟩ := hdec
      have hdim : db.dimension = 0 := hall db (by simp)
      have hstep : considerDb acc db =
          some ⟨0, acc.count + db.vectors.length, acc.schema ++ schemaOf db⟩ := by
        simp [considerDb, hacc, hdim]
      simp only [considerAll, h1, hstep]
      exact ih dbs2 _ h2 rfl (fun x hx => hall x (by simp [hx]))

theorem considerAll_mismatch (d : Nat) (hd : d ≠ 0) :
    ∀ (files : List (List Nat)) (dbs : List Database) (acc : InfoAcc),
      files.map decodeDatabase = dbs.map (fun db => some (db, ([] : List Nat))) →
      acc.dim = d →
      (∃ db ∈ dbs, db.dimension ≠ d) →
      considerAll acc files = .dimMismatch := by
  intro files
  induction files with
  | nil =>
    intro dbs acc hdec hacc hex
    have hnil : dbs = [] := by
      cases dbs with
      | nil => rfl
      | cons x xs => simp at hdec
    subst hnil
    obtain ⟨x, hx, _⟩ := hex
    simp at hx
  | cons bs files ih =>
    intro dbs acc hdec hacc hex
    cases dbs with
    | nil => simp at hdec
    | cons db dbs2 =>
      simp only [List.map_cons, List.cons.injEq] at hdec
      obtain ⟨h1, h2⟩ := hdec
      by_cases hdb : db.dimension = d
      · have hstep : considerDb acc db =
            some ⟨d, acc.count + db.vectors.length, acc.schema ++ schemaOf db⟩ := by
          simp [considerDb, hacc, hd, hdb]
        simp only [considerAll, h1, hstep]
        apply ih dbs2 _ h2 rfl
        obtain ⟨x, hx, hxd⟩ := hex
        rcases List.mem_cons.1 hx with rfl | hx2
        · exact absurd hdb hxd
        · exact ⟨x, hx2, hxd⟩
      · have hstep : considerDb acc db = none := by
          simp [considerDb, hacc, hd, hdb]
        simp only [considerAll, h1, hstep]

theorem considerAll_from_zero (files : List (List Nat)) (dbs : List Database)
    (d : Nat) (hd : d ≠ 0)
    (hdec : files.map decodeDatabase =
      dbs.map fun db => some (db, ([] : List Nat)))
    (hall : ∀ db ∈ dbs, db.dimension = d) (hne : dbs ≠ []) :
    considerAll ⟨0, 0, []⟩ files =
      .done ⟨d, (dbs.map fun db => db.vectors.length).sum,
             (dbs.map schemaOf).flatten⟩ := by
  cases files with
  | nil =>
    cases dbs with
    | nil => exact absurd rfl hne
    | cons db dbs2 => simp at hdec
  | cons bs files2 =>
    cases dbs with
    | nil => simp at hdec
    | cons db dbs2 =>
      simp only [List.map_cons, List.cons.injEq] at hdec
      obtain ⟨h1, h2⟩ := hdec
      have hdim : db.dimension = d := hall db (by simp)
      have hstep : considerDb ⟨0, 0, []⟩ db =
          some ⟨d, db.vectors.length, schemaOf db⟩ := by
        simp [considerDb, hdim]
      simp only [considerAll, h1, hstep]
      rw [considerAll_const d hd files2 dbs2 _ h2 rfl
        (fun x hx => hall x (by simp [hx]))]
      simp

/-- C8 (amended): info reads the canonical file (when present) plus every
shard matching the {name}_part_*.bin pattern and concatenates them: when
every considered file decodes and all report one common dimension d ≠ 0,
the result is ok with dimension d, the record counts summed over all
files and the metadata key/type schema merged across all files; a file
dimension differing from a nonzero already-observed dimension is
rejected as a mismatch (but dimension 0 never pins the observed
dimension); and NotFound is reported when there is no file at all — and
likewise whenever every file reports dimension 0. -/
theorem computeDbInfo_spec (fs : FS) (name : List Nat) (dbs : List Database)
    (d : Nat)
    (hdec : (infoFiles fs name).map decodeDatabase =
      dbs.map fun db => some (db, ([] : List Nat))) :
    (infoFiles fs name = [] → computeDbInfo fs name = .notFound) ∧
    (d ≠ 0 → dbs ≠ [] → (∀ db ∈ dbs, db.dimension = d) →
      computeDbInfo fs name =
        .ok d ((dbs.map fun db => db.vectors.length).sum)
          ((dbs.map schemaOf).flatten)) ∧
    ((∀ db ∈ dbs, db.dimension = 0) → computeDbInfo fs name = .notFound) ∧
    (∀ db0 rest, dbs = db0 :: rest → db0.dimension ≠ 0 →
      (∃ x ∈ rest, x.dimension ≠ db0.dimension) →
      computeDbInfo fs name = .dimMismatch) := by
  refine ⟨?_, ?_, ?_, ?_⟩
  · intro h
    unfold computeDbInfo
    rw [h]
    rfl
  · intro hd hne hall
    unfold computeDbInfo
    rw [considerAll_from_zero (infoFiles fs name) dbs d hd hdec hall hne]
    simp [hd]
  · intro hall
    obtain ⟨acc2, hdone, hdim⟩ :=
      considerAll_zero (infoFiles fs name) dbs ⟨0, 0, []⟩ hdec rfl hall
    unfold computeDbInfo
    rw [hdone]
    simp [hdim]
  · intro db0 rest hsplit h0 hex
    subst hsplit
    cases hfiles : infoFiles fs name with
    | nil =>
      rw [hfiles] at hdec
      simp at hdec
    | cons bs files2 =>
      rw [hfiles] at hdec
      simp only [List.map_cons, List.cons.injEq] at hdec
      obtain ⟨h1, h2⟩ := hdec
      have hstep : considerDb ⟨0, 0, []⟩ db0 =
          some ⟨db0.dimension, db0.vectors.length, schemaOf db0⟩ := by
        simp [considerDb]
      unfold computeDbInfo
      rw [hfiles]
      simp only [considerAll, h1, hstep]
      rw [considerAll_mismatch db0.dimension h0 files2 rest _ h2 rfl hex]

/-- Witness for C8: one canonical file and one shard, both of dimension
2, summing to one record with an empty merged schema. -/
theorem computeDbInfo_spec_witness :
    ((infoFiles
        [(canonicalName [120], encodeDatabase ⟨[120], 2, [⟨[1, 2], []⟩]⟩),
         ([120] ++ partTag ++ [48] ++ dotBin, encodeDatabase ⟨[120], 2, []⟩)]
        [120]).map decodeDatabase =
      ([⟨[120], 2, [⟨[1, 2], []⟩]⟩, ⟨[120], 2, []⟩] : List Database).map
        fun db => some (db, ([] : List Nat))) ∧
    (2 : Nat) ≠ 0 ∧
    ([⟨[120], 2, [⟨[1, 2], []⟩]⟩, ⟨[120], 2, []⟩] : List Database) ≠ [] ∧
    (∀ db ∈ ([⟨[120], 2, [⟨[1, 2], []⟩]⟩, ⟨[120], 2, []⟩] : List Database),
      db.dimension = 2) ∧
    computeDbInfo
      [(canonicalName [120], encodeDatabase ⟨[120], 2, [⟨[1, 2], []⟩]⟩),
       ([120] ++ partTag ++ [48] ++ dotBin, encodeDatabase ⟨[120], 2, []⟩)]
      [120] =
      .ok 2
        ((([⟨[120], 2, [⟨[1, 2], []⟩]⟩, ⟨[120], 2, []⟩] : List Database).map
          fun db => db.vectors.length).sum)
        ((([⟨[120], 2, [⟨[1, 2], []⟩]⟩, ⟨[120], 2, []⟩] : List Database).map
          schemaOf).flatten) :=
  ⟨by decide, by decide, by decide, by decide,
   (computeDbInfo_spec
      [(canonicalName [120], encodeDatabase ⟨[120], 2, [⟨[1, 2], []⟩]⟩),
       ([120] ++ partTag ++ [48] ++ dotBin, encodeDatabase ⟨[120], 2, []⟩)]
      [120] [⟨[120], 2, [⟨[1, 2], []⟩]⟩, ⟨[120], 2, []⟩] 2 (by decide)).2.1
     (by decide) (by decide) (by decide)⟩

/-- C8 counterexample: a canonical file of dimension 0 followed by a
shard of dimension 3 is not rejected — the zero dimension does not count
as observed, so the read succeeds with dimension 3 instead of failing
with the cross-shard dimension mismatch the claim requires. -/
theorem computeDbInfo_zero_dim_not_rejected :
    computeDbInfo
      [(canonicalName [120], encodeDatabase ⟨[120], 0, []⟩),
       ([120] ++ partTag ++ [48] ++ dotBin,
        encodeDatabase ⟨[120], 3, [⟨[1, 2, 3], []⟩]⟩)] [120] =
      .ok 3 1 [] ∧
    computeDbInfo
      [(canonicalName [120], encodeDatabase ⟨[120], 0, []⟩),
       ([120] ++ partTag ++ [48] ++ dotBin,
        encodeDatabase ⟨[120], 3, [⟨[1, 2, 3], []⟩]⟩)] [120] ≠ .dimMismatch := by
  constructor
  · decide
  · decide

end Vectra
